import Mathlib

/-
Verification development for the exprvals package: a value-set analysis for Go
expressions. The definitions below are a shallow embedding of the package
sources. Two generations of the analysis coexist in the sources and both are
embedded here:

  * namespace V1: the files+info API in exprvals.go (Scan, scanIdent, scanVar),
    which collects assignments by an AST walk over the scope of the variable.
  * namespace V2: the packages API (Scan in the typed-Map file, ScanCallResult,
    the statement scanner stmtScanner, and its helpers).

External collaborators (go/ast, go/types, go/constant, package loading) are
embedded as data carried on AST nodes, or as functions modelled from the
documented contract of go/constant.

The V2 scanner functions return Option values: none models a run-time panic
of a go/constant operation (or of an out-of-range index) propagating out of
the scan, and some models a normal return.
-/

namespace Exprvals

/-- The kinds of go/constant values that the package manipulates, restricted to
the kinds its own code constructs and tests exercise: Bool, Int, String and
Unknown, plus exact rationals (go/constant uses ratVal, of kind Float, for the
result of token.QUO on integers). Values with equal canonical (ExactString)
form are identified, following the data model of the package (the canonical
string is the map key). -/
inductive ConstVal where
  | bool (b : Bool)
  | int (n : Int)
  | rat (num : Int) (den : Nat)
  | str (s : String)
  | unknown
  deriving DecidableEq, Repr

/-- Decimal digit character: 48 is the code of the zero digit. -/
def digitChar (d : Nat) : Char := Char.ofNat (48 + d)

/-- Decimal rendering of a natural number, most significant digit first. -/
def natChars (n : Nat) : List Char :=
  if _h : n < 10 then [digitChar n]
  else natChars (n / 10) ++ [digitChar (n % 10)]
termination_by n
decreasing_by
  exact Nat.div_lt_self (by omega) (by omega)

/-- Decimal rendering of an integer (character 45 is the minus sign),
as produced by the String method of math/big integers. -/
def intChars (n : Int) : List Char :=
  if n < 0 then Char.ofNat 45 :: natChars n.natAbs else natChars n.toNat

/-- The double-quote character. -/
def qChar : Char := Char.ofNat 34

/-- The backslash character. -/
def bChar : Char := Char.ofNat 92

/-- Escaping of one character inside a quoted Go string, as strconv.Quote does
for the printable ASCII subset the package and its tests use: quote and
backslash get a backslash prefix, every other character stands for itself. -/
def escChar (c : Char) : List Char := if c = qChar ∨ c = bChar then [bChar, c] else [c]

/-- Escaping of a character list. -/
def escChars : List Char → List Char
  | [] => []
  | c :: cs => escChar c ++ escChars cs

/-- Go strconv.Quote rendering (for the printable ASCII subset): the escaped
text surrounded by double quotes. -/
def quoteChars (s : String) : List Char := qChar :: (escChars s.data ++ [qChar])

/-- Character list of the canonical (ExactString) form of a constant, following
go/constant: booleans print as true and false, integers in decimal, rationals
as num/den (47 is the slash), strings quoted, the unknown value as unknown. -/
def ConstVal.exactChars : ConstVal → List Char
  | .bool b => if b then "true".data else "false".data
  | .int n => intChars n
  | .rat a b => intChars a ++ Char.ofNat 47 :: natChars b
  | .str s => quoteChars s
  | .unknown => "unknown".data

/-- A Value as in the package: either a go/constant value or a Pointer wrapping
another Value (the result of address-of). -/
inductive Value where
  | cv (c : ConstVal)
  | pointer (elem : Value)
  deriving DecidableEq, Repr

/-- Character list of the canonical form of a Value; a Pointer prints as an
ampersand (38) followed by the element, per the ExactString method of Pointer. -/
def Value.exactChars : Value → List Char
  | .cv c => c.exactChars
  | .pointer v => Char.ofNat 38 :: v.exactChars

/-- The ExactString key of a Value. -/
def Value.ExactString (v : Value) : String := String.mk v.exactChars

/-- The Map type of the package: a Go map from ExactString keys to Values.
Every insertion in the sources uses the ExactString of the inserted value as
the key, so the map is embedded as a list of Values with at most one entry per
canonical string. -/
abbrev Map := List Value

/-- The Go map assignment m[v.ExactString()] = v: replace the entry with the
same key if present, otherwise add the value. -/
def mapSet (m : Map) (v : Value) : Map :=
  if m.any fun w => w.ExactString == v.ExactString then
    m.map fun w => if w.ExactString == v.ExactString then v else w
  else m ++ [v]

/-- maps.Copy dst src: every entry of src is stored into dst. -/
def mapsCopy (dst src : Map) : Map := src.foldl mapSet dst

/-- mergeMaps from the sources: copy a, then b, into a fresh map
(so b wins on key collisions). -/
def mergeMaps (a b : Map) : Map := mapsCopy (mapsCopy [] a) b

/-- The go/token operators the package passes to the go/constant operations. -/
inductive Tok where
  | add | sub | mul | quo | rem | and | or | xor | andNot | shl | shr
  | eql | lss | gtr | neq | leq | geq | land | lor
  deriving DecidableEq, Repr

/-- Normalized rational (or integer) from a quotient of integers with nonzero
denominator, as go/constant ratVal normalizes through big.Rat; a denominator of
one collapses to the Int form since the canonical strings coincide. -/
def makeQuo (a b : Int) : ConstVal :=
  let num : Int := if b < 0 then -a else a
  let den : Nat := b.natAbs
  let g : Nat := Int.gcd num (Int.ofNat den)
  let num2 : Int := num / (g : Int)
  let den2 : Nat := den / g
  if den2 = 1 then .int num2 else .rat num2 den2

/-- View of a constant as an exact rational (numerator, denominator). -/
def ratOf : ConstVal → Option (Int × Nat)
  | .int n => some (n, 1)
  | .rat a b => some (a, b)
  | _ => none

/-- Binary arithmetic on two integer constants, as constant.BinaryOp performs
it: token.QUO is exact (rational) division, token.REM is truncated remainder
(big.Int Rem), bitwise operations are two's complement. Division or remainder
by zero is a run-time panic (none), per the documented contract of
constant.BinaryOp; an operator the function does not define for integers
(shifts, comparisons, boolean operators) also panics. -/
def intBinaryOp (a : Int) (t : Tok) (b : Int) : Option ConstVal :=
  match t with
  | .add => some (.int (a + b))
  | .sub => some (.int (a - b))
  | .mul => some (.int (a * b))
  | .quo => if b = 0 then none else some (makeQuo a b)
  | .rem => if b = 0 then none else some (.int (a.tmod b))
  | .and => some (.int (a.land b))
  | .or => some (.int (a.lor b))
  | .xor => some (.int (a.xor b))
  | .andNot => some (.int (a.land b.lnot))
  | _ => none

/-- Binary arithmetic when at least one side is a rational (go/constant
promotes the Int side to a rational): only the four arithmetic operators are
defined for the Float kind; a zero divisor panics (big.Rat Quo). -/
def ratBinaryOp (a1 : Int) (d1 : Nat) (t : Tok) (a2 : Int) (d2 : Nat) : Option ConstVal :=
  match t with
  | .add => some (makeQuo (a1 * d2 + a2 * d1) (d1 * d2))
  | .sub => some (makeQuo (a1 * d2 - a2 * d1) (d1 * d2))
  | .mul => some (makeQuo (a1 * a2) (d1 * d2))
  | .quo => if a2 = 0 then none else some (makeQuo (a1 * d2) (a2 * d1))
  | _ => none

/-- Model of constant.BinaryOp, from its documented contract: if one operand is
Unknown the result is Unknown; booleans support only the logical operators,
strings only concatenation; integer and rational (Float-kind) operands follow
intBinaryOp and ratBinaryOp; division by zero and every operand combination
for which the operation is not defined are run-time panics, modelled as none. -/
def constBinaryOp : ConstVal → Tok → ConstVal → Option ConstVal
  | .unknown, _, _ => some .unknown
  | _, _, .unknown => some .unknown
  | .bool a, .land, .bool b => some (.bool (a && b))
  | .bool a, .lor, .bool b => some (.bool (a || b))
  | .str a, .add, .str b => some (.str (a ++ b))
  | .int a, t, .int b => intBinaryOp a t b
  | .int a, t, .rat a2 d2 => ratBinaryOp a 1 t a2 d2
  | .rat a1 d1, t, .int b => ratBinaryOp a1 d1 t b 1
  | .rat a1 d1, t, .rat a2 d2 => ratBinaryOp a1 d1 t a2 d2
  | _, _, _ => none

/-- Model of constant.Shift on an Int operand (the only kind the scanner lets
through): left shift multiplies by a power of two, right shift is arithmetic
(floor division), other operators panic. -/
def constShift (a : Int) (t : Tok) (s : Nat) : Option ConstVal :=
  match t with
  | .shl => some (.int (a * (2 : Int) ^ s))
  | .shr => some (.int (Int.fdiv a ((2 : Int) ^ s)))
  | _ => none

/-- Numeric comparison of two exact rationals. -/
def ratCmp (a1 : Int) (d1 : Nat) (t : Tok) (a2 : Int) (d2 : Nat) : Option Bool :=
  let x := a1 * d2
  let y := a2 * d1
  match t with
  | .eql => some (x = y)
  | .neq => some (x ≠ y)
  | .lss => some (x < y)
  | .leq => some (x ≤ y)
  | .gtr => some (y < x)
  | .geq => some (y ≤ x)
  | _ => none

/-- Model of constant.Compare, from its documented contract: if one operand is
Unknown the result is false; booleans support equality and inequality, strings
and numbers all six orderings; a comparison that is not defined for the
operands is a run-time panic, modelled as none. -/
def constCompare : ConstVal → Tok → ConstVal → Option Bool
  | .unknown, _, _ => some false
  | _, _, .unknown => some false
  | .bool a, .eql, .bool b => some (a = b)
  | .bool a, .neq, .bool b => some (a ≠ b)
  | .str a, .eql, .str b => some (a = b)
  | .str a, .neq, .str b => some (a ≠ b)
  | .str a, .lss, .str b => some (a < b)
  | .str a, .leq, .str b => some (a ≤ b)
  | .str a, .gtr, .str b => some (b < a)
  | .str a, .geq, .str b => some (b ≤ a)
  | .int a, t, .int b => ratCmp a 1 t b 1
  | .int a, t, .rat a2 d2 => ratCmp a 1 t a2 d2
  | .rat a1 d1, t, .int b => ratCmp a1 d1 t b 1
  | .rat a1 d1, t, .rat a2 d2 => ratCmp a1 d1 t a2 d2
  | _, _, _ => none

/-- The unary operator tokens the expression scanner may see. -/
inductive UnTok where
  | add | sub | xor | not | mul | and | other
  deriving DecidableEq, Repr

/-- Model of constant.UnaryOp at precision 64 (the precision the scanner always
passes): Unknown stays Unknown, plus and minus act on numbers, bitwise
complement acts on integers truncated to 64 bits, logical not on booleans, and
every other combination panics. -/
def constUnaryOp (t : UnTok) (v : ConstVal) : Option ConstVal :=
  match v, t with
  | .unknown, _ => some .unknown
  | .int n, .add => some (.int n)
  | .rat a b, .add => some (.rat a b)
  | .int n, .sub => some (.int (-n))
  | .rat a b, .sub => some (.rat (-a) b)
  | .int n, .xor => some (.int (Int.emod (-(n + 1)) ((2 : Int) ^ 64)))
  | .bool b, .not => some (.bool (!b))
  | _, _ => none

/-- Model of constant.Uint64Val: an Int in range gives its value exactly, an
Int out of range gives an inexact result, Unknown gives an inexact zero, and
any other kind is a run-time panic (none). -/
def constUint64Val : ConstVal → Option (Nat × Bool)
  | .int n => if 0 ≤ n ∧ n < (2 : Int) ^ 64 then some (n.toNat, true) else some (0, false)
  | .unknown => some (0, false)
  | _ => none

/-! ## The packages-API generation of the analysis (V2)

The AST nodes carry the facts the Program Model (go/types TypesInfo and the
loaded packages) reports about them: the Types-map constant of an expression,
the object an identifier resolves to, and for a call the signature result
count reported for the callee expression together with the resolution of the
callee (function with package path, name, signature result variables,
locatable body, and whether it belongs to the analysis package; builtin;
variable; or unresolved). Function bodies are carried on the call node,
embedding the AST search of getBodyForFunc over the package syntax; the
cross-package branch of that lookup stays code, because it dereferences a nil
package pointer. -/

namespace V2

/-- The object TypesInfo.ObjectOf reports for an identifier: a variable (with
its Origin identity), a manifest constant, no object at all, or some other
object kind. -/
inductive IdObj where
  | varObj (origin : Nat)
  | constObj (v : ConstVal)
  | nilObj
  | otherObj
  deriving DecidableEq, Repr

/-- The assignment-statement tokens. -/
inductive ATok where
  | assign | define
  | addA | subA | mulA | quoA | remA | andA | orA | xorA | shlA | shrA | andNotA
  | otherA
  deriving DecidableEq, Repr

/-- The assignOps table: compound-assignment token to binary-operator token. -/
def assignOps : ATok → Option Tok
  | .addA => some .add
  | .subA => some .sub
  | .mulA => some .mul
  | .quoA => some .quo
  | .remA => some .rem
  | .andA => some .and
  | .orA => some .or
  | .xorA => some .xor
  | .shlA => some .shl
  | .shrA => some .shr
  | .andNotA => some .andNot
  | _ => none

/-- The branch-statement tokens. -/
inductive BrTok where
  | breakT | continueT | gotoT | fallthroughT
  deriving DecidableEq, Repr

mutual

/-- Resolution of the callee of a call, as getFuncOrBuiltinForCall computes it
from ObjectOf or the Selections map: unresolved (nil object; a callee
expression that is neither identifier nor selector; or a selector the
Selections map has no entry for — in particular every qualified identifier
such as os.Exit, which Selections excludes), a function (with the package
path of Pkg, which is none for functions without a package; the name; the
result variables of Signature.Results, none when the signature or its results
are nil; the body the AST search of getBodyForFunc would locate over the
syntax of the defining package, none when it finds none; and whether the path
of Pkg equals the PkgPath of the analysis package, the package threaded
unchanged through every scanner call), a builtin, a variable, or another
object kind. -/
inductive FnObj where
  | noObj
  | func (pkgPath : Option String) (name : String)
      (results : Option (List Nat)) (body : Option (List GStmt)) (samePkg : Bool)
  | builtin (name : String)
  | varObj
  | otherObj

/-- An expression node: the Types-map report for the node (outer none: no
value entry; some none: a value entry whose Value is nil; some (some v): a
constant value v) together with its syntactic shape. -/
inductive GExpr where
  | mk (tv : Option (Option ConstVal)) (shape : GShape)

/-- Expression shapes the expression scanner distinguishes. -/
inductive GShape where
  | callE (data : CallData)
  | identE (obj : IdObj)
  | unaryE (op : UnTok) (x : GExpr)
  | binaryE (op : Tok) (x : GExpr) (y : GExpr)
  | parenE (x : GExpr)
  | otherE

/-- Program-Model data of a call expression: the result count of the signature
getSignatureForCall reads from the type of the callee expression (none when
the type is missing, not a signature, or its results are nil), and the callee
resolution. -/
inductive CallData where
  | mk (sigResults : Option Nat) (fnObj : FnObj)

/-- Statement nodes, one constructor per go/ast statement shape the scanner
dispatches on; shapes the scanner does not handle (the default case) are
otherS, and the shapes it handles as explicit no-ops keep their own
constructors. -/
inductive GStmt where
  | assign (lhs : List GExpr) (tok : ATok) (rhs : List GExpr)
  | block (body : List GStmt)
  | branch (tok : BrTok)
  | declS
  | deferS
  | emptyS
  | exprS (x : GExpr)
  | forS
  | goS (call : CallData)
  | ifS (init : Option GStmt) (cond : GExpr) (body : List GStmt) (els : Option GStmt)
  | incDec (x : GExpr) (isDec : Bool)
  | labeled (s : GStmt)
  | rangeS
  | retS (results : List GExpr)
  | selectS
  | sendS
  | switchS (init : Option GStmt) (tag : Option GExpr) (body : List CaseItem)
  | typeSwitchS
  | otherS

/-- An item of a switch body: a case clause (cases is none for a default
clause) or a statement that is not a case clause. -/
inductive CaseItem where
  | clause (cases : Option (List GExpr)) (body : List GStmt)
  | notClause

end

/-- ast.Unparen: strip parentheses. -/
def unparen : GExpr → GExpr
  | .mk _ (.parenE x) => unparen x
  | e => e

theorem sizeOf_unparen_le : (e : GExpr) → sizeOf (unparen e) ≤ sizeOf e
  | .mk _ (.parenE x) => by
    have h := sizeOf_unparen_le x
    simp only [unparen]
    simp only [GExpr.mk.sizeOf_spec, GShape.parenE.sizeOf_spec]
    omega
  | .mk _ (.callE _) => by simp [unparen]
  | .mk _ (.identE _) => by simp [unparen]
  | .mk _ (.unaryE _ _) => by simp [unparen]
  | .mk _ (.binaryE _ _ _) => by simp [unparen]
  | .mk _ (.otherE) => by simp [unparen]

theorem gexpr_sizeOf_pos (e : GExpr) : 0 < sizeOf e := by
  cases e; simp_arith

theorem gstmt_sizeOf_pos (st : GStmt) : 0 < sizeOf st := by
  cases st <;> simp_arith

theorem optGE_sizeOf_pos (o : Option GExpr) : 0 < sizeOf o := by
  cases o <;> simp_arith

theorem optGS_sizeOf_pos (o : Option GStmt) : 0 < sizeOf o := by
  cases o <;> simp_arith

theorem listGE_sizeOf_pos (l : List GExpr) : 0 < sizeOf l := by
  cases l <;> simp_arith

theorem listCI_sizeOf_pos (l : List CaseItem) : 0 < sizeOf l := by
  cases l <;> simp_arith

/-- The constant the Types map yields in Scan: a non-nil Value of a kind other
than Unknown. -/
def tvConst : Option (Option ConstVal) → Option ConstVal
  | some (some v) => if v = .unknown then none else some v
  | _ => none

/-- isSingleValue on a call expression: the signature of the callee type has
exactly one result. (On a non-call expression the source returns true, but
Scan only consults it for calls.) -/
def isSingleValue (data : CallData) : Bool :=
  match data with
  | .mk (some n) _ => n == 1
  | .mk none _ => false

/-- scanVarAt from ident.go: not yet implemented in the source (marked xxx);
it returns no values, incomplete. -/
def scanVarAt (_origin : Nat) : Map × Bool := ([], false)

/-- scanIdent from ident.go: a nil object or a non-variable object yields
nothing; a variable delegates to scanVarAt. -/
def scanIdent (obj : IdObj) : Map × Bool :=
  match obj with
  | .nilObj => ([], false)
  | .varObj o => scanVarAt o
  | _ => ([], false)

/-- exprIsVar from the helpers file: the expression is an identifier whose
object is a variable with the same Origin as v. (This version does not strip
parentheses.) -/
def exprIsVar (e : GExpr) (v : Nat) : Bool :=
  match e with
  | .mk _ (.identE (.varObj o)) => o == v
  | _ => false

/-- isNonLocalExitBuiltin: the builtin panic. -/
def isNonLocalExitBuiltin (name : String) : Bool := name == "panic"

/-- isNonLocalExitFunc: the nonLocalExitFuncs table, keyed by package path:
os.Exit and the four testing abort functions. A function without a package is
never a non-local exit. -/
def isNonLocalExitFunc (pkgPath : Option String) (name : String) : Bool :=
  match pkgPath with
  | none => false
  | some p =>
    (p == "os" && name == "Exit") ||
    (p == "testing" &&
      (name == "Fatal" || name == "Fatalf" || name == "FailNow" || name == "SkipNow"))

/-- anyBoolVals: does some constant boolean value in the map equal want? -/
def anyBoolVals (m : Map) (want : Bool) : Bool :=
  m.any fun v =>
    match v with
    | .cv (.bool b) => b == want
    | _ => false

/-- The state of a stmtScanner: target variable identity, target return-slot
index, accumulated value set and completeness, and the canContinue flag. -/
structure SState where
  v : Nat
  retIdx : Int
  vals : Map
  complete : Bool
  canContinue : Bool
  deriving DecidableEq, Repr

/-- newStmtScanner: fresh scanner with the given target and value set,
complete and canContinue both true. (The source also builds a copy of vals
that it then does not use; the scanner stores the passed map itself.) -/
def newStmtScanner (v : Nat) (retIdx : Int) (vals : Map) : SState :=
  { v := v, retIdx := retIdx, vals := vals, complete := true, canContinue := true }

/-- dup: a fork of the scanner sharing the accumulated value set and
completeness, with its own canContinue initialized to true. (As in
newStmtScanner, the copy of vals the source builds is unused; the fork stores
the same map value.) -/
def SState.dup (s : SState) : SState :=
  { v := s.v, retIdx := s.retIdx, vals := s.vals, complete := s.complete,
    canContinue := true }

/-- One pairing step of scanBinaryExprWithLHS for two constant operands:
dispatch on the operator to Shift (after the integer-kind test on the left
operand and Uint64Val on the right), Compare, or BinaryOp, then drop Unknown
results (lowering completeness) and store defined results. A panic of the
go/constant operation propagates as none. -/
def pairOp (acc : Map × Bool) (lcv : ConstVal) (op : Tok) (rcv : ConstVal) :
    Option (Map × Bool) :=
  match op with
  | .shl | .shr =>
    match lcv with
    | .int a => do
      let ru ← constUint64Val rcv
      if !ru.2 then pure (acc.1, false)
      else if ru.1 > 2 ^ 64 - 1 then pure (acc.1, false)
      else do
        let vv ← constShift a op ru.1
        if vv = .unknown then pure (acc.1, false)
        else pure (mapSet acc.1 (.cv vv), acc.2)
    | _ => pure (acc.1, false)
  | .eql | .lss | .gtr | .neq | .leq | .geq => do
    let cmp ← constCompare lcv op rcv
    let vv := ConstVal.bool cmp
    if vv = .unknown then pure (acc.1, false)
    else pure (mapSet acc.1 (.cv vv), acc.2)
  | _ => do
    let vv ← constBinaryOp lcv op rcv
    if vv = .unknown then pure (acc.1, false)
    else pure (mapSet acc.1 (.cv vv), acc.2)

/-- The inner loop of the clause-match test of switchStmt over the values of
one case expression: a non-constant value or an equal pair (constant.Compare
with the equality token) makes the clause matchable; Compare panics propagate. -/
def pairAnyEq (cv : ConstVal) (exprVals : Map) : Option Bool :=
  match exprVals with
  | [] => some false
  | v :: rest =>
    match v with
    | .pointer _ => some true
    | .cv cv2 => do
      let r ← constCompare cv .eql cv2
      if r then some true else pairAnyEq cv rest

/-- The middle loop of the clause-match test of switchStmt over the tag
values: a non-constant tag value makes the clause matchable. -/
def tagAnyMatch (tagVals : Map) (exprVals : Map) : Option Bool :=
  match tagVals with
  | [] => some false
  | tv :: rest =>
    match tv with
    | .pointer _ => some true
    | .cv cv => do
      let r ← pairAnyEq cv exprVals
      if r then some true else tagAnyMatch rest exprVals

/-- The fallsThrough flag of a case clause: the last statement of the body
that is not an empty statement is a fallthrough branch statement. -/
def clauseFallsThrough (body : List GStmt) : Bool :=
  match body.reverse.find? (fun st => match st with | .emptyS => false | _ => true) with
  | some (.branch .fallthroughT) => true
  | _ => false

/-- Per-clause record collected by switchStmt for matchable clauses. -/
structure ClauseInfo where
  scanner : SState
  fallsThrough : Bool
  isDefault : Bool

/-- Accumulator of the final merge loop of switchStmt. -/
structure SwitchAcc where
  vals : Map
  complete : Bool
  cont : Bool
  hasDefault : Bool

/-- The final merge loop of switchStmt over the matchable clauses: union of
value sets, conjunction of completeness, disjunction of canContinue, and the
presence of a default clause. -/
def mergeClauses (acc : SwitchAcc) : List ClauseInfo → SwitchAcc
  | [] => acc
  | info :: rest =>
    mergeClauses
      { vals := mergeMaps acc.vals info.scanner.vals,
        complete := acc.complete && info.scanner.complete,
        cont := acc.cont || info.scanner.canContinue,
        hasDefault := acc.hasDefault || info.isDefault } rest

/-- incDecStmt: when the operand is the target variable, each tracked value is
adjusted through constant.BinaryOp with the ADD token and the delta of plus or
minus one; non-constant values and Unknown results are dropped and lower
completeness. A BinaryOp panic propagates as none. -/
def incDecStmt (s : SState) (x : GExpr) (isDec : Bool) : Option SState :=
  if !exprIsVar x s.v then some s
  else do
    let delta : Int := if isDec then -1 else 1
    let r ← s.vals.foldlM
      (fun (acc : Map × Bool) val =>
        match val with
        | .pointer _ => some (acc.1, false)
        | .cv c => do
          let nv ← constBinaryOp c .add (.int delta)
          if nv = .unknown then some (acc.1, false)
          else some (mapSet acc.1 (.cv nv), acc.2))
      (([] : Map), s.complete)
    some { s with vals := r.1, complete := r.2 }

/-- branchStmt: break, continue, goto and fallthrough all stop the current
statement list. -/
def branchStmt (s : SState) : SState := { s with canContinue := false }

set_option maxHeartbeats 2000000 in
mutual

/-- Scan from the packages-API generation: strip parentheses, answer a
singleton complete set for an expression the Types map reports as a non-nil
constant that is not of Unknown kind, and otherwise dispatch on the shape:
calls go through isSingleValue and ScanCallResult at result slot 0,
identifiers through scanIdent, unary and binary operators through the
expression scanners, and any other shape yields nothing, incomplete. -/
def Scan : GExpr → Option (Map × Bool)
  | .mk _ (.parenE x) => Scan x
  | .mk tv shape =>
    match tvConst tv with
    | some v => some ([Value.cv v], true)
    | none =>
      match shape with
      | .callE data =>
        if isSingleValue data then ScanCallResult data 0 else some ([], false)
      | .identE obj => some (scanIdent obj)
      | .unaryE op x => scanUnaryExpr op x
      | .binaryE op x y => scanBinaryExpr op x y
      | .parenE _ => some ([], false)
      | .otherE => some ([], false)
termination_by e => (sizeOf e, 0)

/-- ScanCallResult: resolve the callee to a function (getFuncForCall, here
the direct match on the carried resolution), read its signature results,
check the result index bounds, locate the body (getBodyForFunc, inlined: nil
when the function has no package or the in-package search carries no body,
and a run-time panic — none — when the function is from another package),
and run a fresh statement scanner targeting the result variable over the
body, returning its accumulated set and completeness. Every nil-yielding
failure gives nothing, incomplete. -/
def ScanCallResult (data : CallData) (idx : Int) : Option (Map × Bool) :=
  match data with
  | .mk _ (.func pkgPath _name results bodyF samePkg) =>
    match results with
    | none => some ([], false)
    | some rs =>
      if idx < 0 ∨ (rs.length : Int) ≤ idx then some ([], false)
      else
        match rs.get? idx.toNat with
        | none => some ([], false)
        | some resultVar =>
          match pkgPath, samePkg, bodyF with
          | none, _, _ => some ([], false)
          | some _, false, _ => none
          | some _, true, none => some ([], false)
          | some _, true, some b => do
            let sc ← blockStmt (newStmtScanner resultVar idx []) b
            pure (sc.vals, sc.complete)
  | _ => some ([], false)
termination_by (sizeOf data, 0)

/-- scanUnaryExpr: dereference unwraps Pointer values, address-of wraps every
value in a Pointer, and any other unary operator goes through
constant.UnaryOp at precision 64 on constant values, dropping non-constants
and Unknown results with loss of completeness. -/
def scanUnaryExpr (op : UnTok) (x : GExpr) : Option (Map × Bool) :=
  match op with
  | .mul => do
    let p ← Scan x
    pure (p.1.foldl
      (fun (acc : Map × Bool) v =>
        match v with
        | .pointer q => (mapSet acc.1 q, acc.2)
        | _ => (acc.1, false))
      (([] : Map), p.2))
  | .and => do
    let p ← Scan x
    pure (p.1.foldl (fun (acc : Map) v => mapSet acc (Value.pointer v)) [], p.2)
  | _ => do
    let p ← Scan x
    p.1.foldlM
      (fun (acc : Map × Bool) v =>
        match v with
        | .pointer _ => some (acc.1, false)
        | .cv c => do
          let vv ← constUnaryOp op c
          if vv = .unknown then some (acc.1, false)
          else some (mapSet acc.1 (.cv vv), acc.2))
      (([] : Map), p.2)
termination_by (sizeOf x, 1)

/-- scanBinaryExpr: scan the left operand and combine with the right through
scanBinaryExprWithLHS. -/
def scanBinaryExpr (op : Tok) (x y : GExpr) : Option (Map × Bool) := do
  let l ← Scan x
  scanBinaryExprWithLHS l.1 l.2 op y
termination_by (sizeOf x + sizeOf y, 2)
decreasing_by
  · exact Prod.Lex.left _ _ (by have := gexpr_sizeOf_pos y; omega)
  · exact Prod.Lex.left _ _ (by have := gexpr_sizeOf_pos x; omega)

/-- scanBinaryExprWithLHS: scan the right-hand side, then combine every
pairing of left and right values through pairOp; completeness starts as the
conjunction of both sides and is lowered by non-constant operands and
undefined pairings. -/
def scanBinaryExprWithLHS (lvals : Map) (lcomplete : Bool) (op : Tok)
    (rhs : GExpr) : Option (Map × Bool) := do
  let r ← Scan rhs
  lvals.foldlM
    (fun (acc : Map × Bool) lv =>
      match lv with
      | .pointer _ => some (acc.1, false)
      | .cv lcv =>
        r.1.foldlM
          (fun (acc2 : Map × Bool) rv =>
            match rv with
            | .pointer _ => some (acc2.1, false)
            | .cv rcv => pairOp acc2 lcv op rcv)
          acc)
    (([] : Map), lcomplete && r.2)
termination_by (sizeOf rhs, 1)

/-- stmt: dispatch on the statement shape; unhandled shapes lower
completeness, the xxx-stubbed shapes are no-ops. -/
def stmt (s : SState) (st : GStmt) : Option SState :=
  match st with
  | .assign lhs tok rhs => assignStmt s lhs tok rhs
  | .block body => blockStmt s body
  | .branch _ => some (branchStmt s)
  | .declS => some s
  | .deferS => some s
  | .emptyS => some s
  | .exprS x => exprStmt s x
  | .forS => some s
  | .goS data => goStmt s data
  | .ifS init cond body els => ifStmt s init cond body els
  | .incDec x isDec => incDecStmt s x isDec
  | .labeled inner => stmt s inner
  | .rangeS => some s
  | .retS results => returnStmt s results
  | .selectS => some s
  | .sendS => some s
  | .switchS init tag body => switchStmt s init tag body
  | .typeSwitchS => some s
  | .otherS => some { s with complete := false }
termination_by (sizeOf st, 3)

/-- An optional statement: the source passes possibly nil statements to stmt,
which returns at once on nil. -/
def stmtOpt (s : SState) : Option GStmt → Option SState
  | none => some s
  | some st => stmt s st
termination_by o => (sizeOf o, 0)

/-- stmtList: process the statements in order while canContinue holds. -/
def stmtList (s : SState) (l : List GStmt) : Option SState :=
  match l with
  | [] => some s
  | st :: rest =>
    if !s.canContinue then some s
    else do
      let s2 ← stmt s st
      stmtList s2 rest
termination_by (sizeOf l, 1)

/-- blockStmt: scan the statement list of the block. -/
def blockStmt (s : SState) (body : List GStmt) : Option SState :=
  stmtList s body
termination_by (sizeOf body, 2)

/-- assignStmt: find the target on the left-hand side; with equal arities scan
the matching right-hand expression, with a single call on the right resolve
the matching result slot through ScanCallResult, and with any other arity
combination lower completeness; then a plain assign or define replaces the
tracked set and completeness, and a compound token combines the tracked set
with the right-hand side through the corresponding binary operator. -/
def assignStmt (s : SState) (lhs : List GExpr) (tok : ATok) (rhs : List GExpr) :
    Option SState :=
  match lhs.findIdx? (fun e => exprIsVar e s.v) with
  | none => some s
  | some idx =>
    if rhs.length = lhs.length then
      match h : rhs.get? idx with
      | none => none
      | some e => do
        let p ← Scan e
        assignFinish s tok rhs idx p.1 p.2
    else if rhs.length = 1 then
      match h0 : rhs.get? 0 with
      | none => none
      | some r0 =>
        match hu : unparen r0 with
        | .mk _ (.callE data) => do
          let p ← ScanCallResult data idx
          assignFinish s tok rhs idx p.1 p.2
        | _ => assignFinish s tok rhs idx [] false
    else some { s with complete := false }
termination_by (sizeOf lhs + sizeOf rhs, 2)
decreasing_by
  all_goals apply Prod.Lex.left
  all_goals
    first
    | (have hm := List.sizeOf_lt_of_mem (List.get?_mem h)
       omega)
    | (have hp := listGE_sizeOf_pos lhs
       omega)
    | (have hm := List.sizeOf_lt_of_mem (List.get?_mem h0)
       have hu2 := sizeOf_unparen_le r0
       rw [hu] at hu2
       simp_arith at hu2
       omega)

/-- The tail of assignStmt after the right-hand side values are known. -/
def assignFinish (s : SState) (tok : ATok) (rhs : List GExpr) (idx : Nat)
    (rvals : Map) (rc : Bool) : Option SState :=
  match tok with
  | .assign => some { s with vals := rvals, complete := rc }
  | .define => some { s with vals := rvals, complete := rc }
  | _ =>
    match assignOps tok with
    | none => some { s with complete := false }
    | some op =>
      match h : rhs.get? idx with
      | none => none
      | some e => do
        let p ← scanBinaryExprWithLHS s.vals s.complete op e
        pure { s with vals := p.1, complete := p.2 }
termination_by (sizeOf rhs, 1)
decreasing_by
  exact Prod.Lex.left _ _ (List.sizeOf_lt_of_mem (List.get?_mem h))

/-- exprStmt: when the sequence is still alive and the expression (after
stripping parentheses) is a call, examine it for non-local-exit effects and
scan the callee body. -/
def exprStmt (s : SState) (x : GExpr) : Option SState :=
  if !s.canContinue then some s
  else
    match hu : unparen x with
    | .mk _ (.callE data) => callExpr s data
    | _ => some s
termination_by (sizeOf x, 2)
decreasing_by
  apply Prod.Lex.left
  have hu2 := sizeOf_unparen_le x
  rw [hu] at hu2
  simp_arith at hu2
  omega

/-- callExpr: a resolved function or builtin sets canContinue from the
non-local-exit tables; a resolved function then has its body looked up
(getBodyForFunc, inlined), which for a function from another package panics
on a nil package pointer — none, losing the flag update with the rest of the
scan; with a locatable body, a forked scanner scans the body (its result is
discarded; only a panic propagates). -/
def callExpr (s : SState) (data : CallData) : Option SState :=
  match data with
  | .mk _ (.func pkgPath name _results bodyF samePkg) =>
    let s1 := { s with canContinue := !isNonLocalExitFunc pkgPath name }
    match pkgPath, samePkg, bodyF with
    | none, _, _ => some s1
    | some _, false, _ => none
    | some _, true, none => some s1
    | some _, true, some b => do
      let _sub ← blockStmt s1.dup b
      some s1
  | .mk _ (.builtin name) => some { s with canContinue := !isNonLocalExitBuiltin name }
  | _ => some s
termination_by (sizeOf data, 0)

/-- goStmt: examine the launched call, then restore canContinue since the new
goroutine does not halt the current sequence. -/
def goStmt (s : SState) (data : CallData) : Option SState := do
  let s1 ← callExpr s data
  some { s1 with canContinue := true }
termination_by (sizeOf data, 1)

/-- ifStmt: scan the init statement, scan the condition, and decide which
branches are possible from the boolean values of the condition set (an
incomplete condition makes both possible). A single possible branch is
scanned in place; both possible without an else scans the body in place and
forces canContinue; both possible with an else forks two scanners from the
current state, scans one branch in each, and merges: union of value sets,
conjunction of completeness, disjunction of canContinue. -/
def ifStmt (s : SState) (init : Option GStmt) (cond : GExpr) (body : List GStmt)
    (els : Option GStmt) : Option SState := do
  let s1 ← stmtOpt s init
  let c ← Scan cond
  let canBeTrue := !c.2 || anyBoolVals c.1 true
  let canBeFalse := !c.2 || anyBoolVals c.1 false
  if canBeTrue then
    if !canBeFalse then blockStmt s1 body
    else
      match els with
      | none => do
        let s2 ← blockStmt s1 body
        pure { s2 with canContinue := true }
      | some e => do
        let thenS ← blockStmt s1.dup body
        let elseS ← stmt s1.dup e
        pure { s1 with
                vals := mergeMaps thenS.vals elseS.vals
                complete := thenS.complete && elseS.complete
                canContinue := thenS.canContinue || elseS.canContinue }
  else if canBeFalse then stmtOpt s1 els
  else pure s1
termination_by (sizeOf init + sizeOf cond + sizeOf body + sizeOf els, 0)
decreasing_by
  all_goals apply Prod.Lex.left
  all_goals try (simp_arith; done)
  all_goals try simp_arith
  all_goals try omega
  all_goals
    have h1 := gexpr_sizeOf_pos cond
    have h2 := optGS_sizeOf_pos init
    have h3 := optGS_sizeOf_pos els
    omega

/-- returnStmt: stop the sequence; when the target return slot is present
among the returned expressions, rescan it and adopt its set and completeness. -/
def returnStmt (s : SState) (results : List GExpr) : Option SState :=
  let s1 := { s with canContinue := false }
  if s1.retIdx < 0 ∨ (results.length : Int) ≤ s1.retIdx then some s1
  else
    match h : results.get? s1.retIdx.toNat with
    | none => some s1
    | some e => do
      let p ← Scan e
      some { s1 with vals := p.1, complete := p.2 }
termination_by (sizeOf results, 0)
decreasing_by
  exact Prod.Lex.left _ _ (List.sizeOf_lt_of_mem (List.get?_mem h))

/-- The match test of one case clause over its case expressions: an
incomplete case-expression scan, a non-constant value on either side, or an
equal constant pair makes the clause matchable. -/
def caseExprsMatch (tagVals : Map) (exprs : List GExpr) : Option Bool :=
  match exprs with
  | [] => some false
  | e :: rest => do
    let p ← Scan e
    if !p.2 then some true
    else do
      let m ← tagAnyMatch tagVals p.1
      if m then some true else caseExprsMatch tagVals rest
termination_by (sizeOf exprs, 1)

/-- The clause loop of switchStmt: thread the completeness flag (a non-clause
item in the body lowers it), decide matchability of each clause (default
clauses and, when more than one clause was already collected, clauses after a
collected clause that falls through always match; otherwise the case
expressions are tested against the tag values), and scan each matchable
clause in a fork of the switch-entry state. -/
def switchClauses (s : SState) (tagVals : Map) (tagComplete : Bool)
    (items : List CaseItem) (complete : Bool) (acc : List ClauseInfo) :
    Option (List ClauseInfo × Bool) :=
  match items with
  | [] => some (acc, complete)
  | .notClause :: rest => switchClauses s tagVals tagComplete rest false acc
  | .clause cases body :: rest => do
    let isDefault := cases.isNone
    let ft := clauseFallsThrough body
    let canMatch0 := isDefault || !tagComplete
    let canMatch1 :=
      if !canMatch0 && decide (acc.length > 1) then
        match acc.getLast? with
        | some prev => prev.fallsThrough
        | none => false
      else canMatch0
    let canMatch ←
      if canMatch1 then pure true
      else caseExprsMatch tagVals (cases.getD [])
    if !canMatch then switchClauses s tagVals tagComplete rest complete acc
    else do
      let sub0 := SState.dup { s with complete := complete }
      let sub ← stmtList sub0 body
      switchClauses s tagVals tagComplete rest complete
        (acc ++ [{ scanner := sub, fallsThrough := ft, isDefault := isDefault }])
termination_by (sizeOf items, 0)
decreasing_by
  all_goals apply Prod.Lex.left
  all_goals try (simp_arith; done)
  all_goals try simp_arith
  all_goals try omega
  all_goals rcases cases with _ | l <;> simp_arith [Option.getD] <;> omega

/-- switchStmt: scan the init statement, build the tag value set (a synthetic
true for a tagless switch), collect and scan the matchable clauses, then
merge them: union of value sets, conjunction of completeness (reset to true
before the merge), disjunction of canContinue, with canContinue also true
when no default clause is present. -/
def switchStmt (s : SState) (init : Option GStmt) (tag : Option GExpr)
    (body : List CaseItem) : Option SState := do
  let s1 ← stmtOpt s init
  let tp ← (match tag with
    | none => some ([Value.cv (.bool true)], true)
    | some t => Scan t)
  let cl ← switchClauses s1 tp.1 tp.2 body s1.complete []
  let m := mergeClauses { vals := [], complete := true, cont := false, hasDefault := false } cl.1
  pure { s1 with
          vals := m.vals
          complete := m.complete
          canContinue := m.cont || !m.hasDefault }
termination_by (sizeOf init + sizeOf tag + sizeOf body, 0)
decreasing_by
  all_goals apply Prod.Lex.left
  all_goals try (simp_arith; done)
  all_goals try simp_arith
  all_goals try omega
  all_goals
    first
    | (have h1 := optGS_sizeOf_pos init
       have h2 := optGE_sizeOf_pos tag
       have h3 := listCI_sizeOf_pos body
       omega)
    | (have h1 := optGS_sizeOf_pos init
       have h3 := listCI_sizeOf_pos body
       omega)

end

end V2

/-! ## The files+info generation of the analysis (V1)

Scan, scanIdent and scanVar from exprvals.go. scanVar walks (ast.Inspect) the
smallest AST node containing the scope of the variable and reacts to
assignment statements, address-of expressions and value specifications; every
other node only contributes its children to the walk. The walk environment
maps a variable identity (Origin) to that enclosing node, embedding the
scope-to-node search over the files; a missing entry embeds a failed search.
Scanning a variable on a right-hand side recurses through the environment,
which the source bounds only by the call stack; the embedding carries a fuel
parameter for that recursion and yields nothing, incomplete, at exhaustion. -/

namespace V1

/-- The object ObjectOf reports for an identifier. -/
inductive OObj where
  | constO (v : ConstVal)
  | varO (origin : Nat)
  | nilO
  | otherO
  deriving DecidableEq, Repr

/-- The assignment tokens scanVar distinguishes: plain assignment, short
declaration, and everything else (the default case). -/
inductive OTok where
  | assignT | defineT | otherT
  deriving DecidableEq, Repr

/-- The classification of the underlying type of a declared name, as the
zero-value case of scanVar reads it: a basic string, boolean or numeric type
(all numeric kinds, including the float and complex kinds, yield the integer
zero there), a basic type it ignores (unsafe pointer or any other basic
kind), a type whose underlying type is not basic, or no type information. -/
inductive OTypeKind where
  | stringK | boolK | numericK | ignoredBasicK | notBasicK | noType
  deriving DecidableEq, Repr

/-- The zero value scanVar adds for a declared-but-unassigned name. -/
def zeroValFor : OTypeKind → Option ConstVal
  | .stringK => some (.str "")
  | .boolK => some (.bool false)
  | .numericK => some (.int 0)
  | _ => none

/-- A name on the left of a value specification: its object and the
classification of its type. -/
structure OIdent where
  obj : OObj
  typeKind : OTypeKind
  deriving DecidableEq, Repr

/-- AST nodes as the V1 walk sees them: the three shapes the scanVar callback
reacts to, identifier and generic expression leaves carrying their Types-map
report, parentheses, and a generic node that only exposes children. -/
inductive ONode where
  | assign (tok : OTok) (lhs : List ONode) (rhs : List ONode)
  | unary (op : UnTok) (x : ONode)
  | valueSpec (names : List OIdent) (values : List ONode)
  | identN (tv : Option (Option ConstVal)) (obj : OObj)
  | exprN (tv : Option (Option ConstVal))
  | paren (x : ONode)
  | other (children : List ONode)

theorem onode_sizeOf_pos (n : ONode) : 0 < sizeOf n := by
  cases n <;> simp_arith

/-- ast.Unparen for V1 nodes. -/
def unparenO : ONode → ONode
  | .paren x => unparenO x
  | n => n

/-- The Types-map report of an expression node. -/
def tvO : ONode → Option (Option ConstVal)
  | .identN tv _ => tv
  | .exprN tv => tv
  | _ => none

/-- exprIsVar from exprvals.go: strip parentheses, then the identifier must
resolve to a variable with the Origin of v. -/
def exprIsVar (e : ONode) (v : Nat) : Bool :=
  match unparenO e with
  | .identN _ (.varO o) => o == v
  | _ => false

/-- identIsVar from exprvals.go. -/
def identIsVar (i : OIdent) (v : Nat) : Bool :=
  match i.obj with
  | .varO o => o == v
  | _ => false

/-- The walk environment: variable Origin to the smallest node containing its
scope. -/
abbrev OEnv := List (Nat × ONode)

def envLookup (env : OEnv) (o : Nat) : Option ONode :=
  (env.find? (fun p => p.1 == o)).map (fun p => p.2)

/-- The state the scanVar walk accumulates: the value set and the
completeness flag. -/
structure SVState where
  vals : Map
  complete : Bool
  deriving DecidableEq, Repr

mutual

/-- Scan from exprvals.go: strip parentheses; a Types entry that is a value
yields failure for a nil constant and a singleton complete set otherwise; an
identifier goes through scanIdent; every other shape yields nothing,
incomplete. -/
def Scan (fuel : Nat) (env : OEnv) (node : ONode) : Map × Bool :=
  match node with
  | .paren x => Scan fuel env x
  | _ =>
    match tvO node with
    | some none => ([], false)
    | some (some v) => ([Value.cv v], true)
    | none =>
      match node with
      | .identN _ obj => scanIdent fuel env obj
      | _ => ([], false)
termination_by (fuel, sizeOf node, 2)
decreasing_by
  all_goals
    first
    | decreasing_tactic
    | (apply Prod.Lex.right
       apply Prod.Lex.left
       exact onode_sizeOf_pos _)

/-- scanIdent from exprvals.go: a manifest constant yields its value; a
variable goes through scanVar; anything else yields nothing, incomplete. -/
def scanIdent (fuel : Nat) (env : OEnv) (obj : OObj) : Map × Bool :=
  match obj with
  | .constO v => ([Value.cv v], true)
  | .varO o => scanVar fuel env o
  | _ => ([], false)
termination_by (fuel, 0, 1)

/-- scanVar from exprvals.go: find the smallest node containing the scope of
the variable (the environment lookup; failure yields nothing, incomplete) and
walk it collecting assignments, starting from the empty set, complete. -/
def scanVar (fuel : Nat) (env : OEnv) (origin : Nat) : Map × Bool :=
  match fuel with
  | 0 => ([], false)
  | fuel + 1 =>
    match envLookup env origin with
    | none => ([], false)
    | some node =>
      let st := inspect fuel env origin { vals := [], complete := true } node
      (st.vals, st.complete)
termination_by (fuel, 0, 0)

/-- One node of the ast.Inspect walk of scanVar: apply the callback to the
node, then walk its children in order. (The name identifiers and the type
expression of a value specification are not carried as children: the callback
has no case for bare identifiers, and type expressions hold no nodes the
callback reacts to in the programs modelled here.) -/
def inspect (fuel : Nat) (env : OEnv) (v : Nat) (st : SVState) (node : ONode) :
    SVState :=
  let st1 := inspectStep fuel env v st node
  match node with
  | .assign _ lhs rhs => inspectList fuel env v (inspectList fuel env v st1 lhs) rhs
  | .unary _ x => inspect fuel env v st1 x
  | .valueSpec _ values => inspectList fuel env v st1 values
  | .identN _ _ => st1
  | .exprN _ => st1
  | .paren x => inspect fuel env v st1 x
  | .other cs => inspectList fuel env v st1 cs
termination_by (fuel, sizeOf node, 1)

/-- The walk over a list of children. -/
def inspectList (fuel : Nat) (env : OEnv) (v : Nat) (st : SVState) :
    List ONode → SVState
  | [] => st
  | n :: rest => inspectList fuel env v (inspect fuel env v st n) rest
termination_by l => (fuel, sizeOf l, 0)

/-- The callback of the scanVar walk on one node, from exprvals.go. An
assignment with the plain or declare token whose left-hand side holds the
target at position found: mismatched arity lowers completeness, otherwise the
matching right-hand expression is scanned and its values accumulate, its
completeness conjoined; any other assignment token lowers completeness. An
address-of applied to the target lowers completeness. A value specification
naming the target: with no initializer values, the zero value of the declared
basic type (if any) is added and the completeness flag is set to true;
mismatched arity lowers completeness; otherwise the matching value is scanned
and accumulates as for assignments. Every other node shape is ignored. -/
def inspectStep (fuel : Nat) (env : OEnv) (v : Nat) (st : SVState)
    (node : ONode) : SVState :=
  match node with
  | .assign tok lhs rhs =>
    match tok with
    | .otherT => { st with complete := false }
    | _ =>
      match lhs.findIdx? (fun e => exprIsVar e v) with
      | none => st
      | some found =>
        if rhs.length ≠ lhs.length then { st with complete := false }
        else
          match h : rhs.get? found with
          | none => st
          | some r =>
            let p := Scan fuel env r
            { vals := mapsCopy st.vals p.1, complete := st.complete && p.2 }
  | .unary op x =>
    if op = .and then
      if exprIsVar x v then { st with complete := false } else st
    else st
  | .valueSpec names values =>
    match names.findIdx? (fun i => identIsVar i v) with
    | none => st
    | some found =>
      if values.length = 0 then
        { vals :=
            (match names.get? found with
             | some i =>
               (match zeroValFor i.typeKind with
                | some z => mapSet st.vals (.cv z)
                | none => st.vals)
             | none => st.vals),
          complete := true }
      else if values.length ≠ names.length then { st with complete := false }
      else
        match h : values.get? found with
        | none => st
        | some r =>
          let p := Scan fuel env r
          { vals := mapsCopy st.vals p.1, complete := st.complete && p.2 }
  | _ => st
termination_by (fuel, sizeOf node, 0)
decreasing_by
  all_goals
    apply Prod.Lex.right
    apply Prod.Lex.left
    have hm := List.sizeOf_lt_of_mem (List.get?_mem h)
    simp_arith
    try omega

end

end V1

namespace V1

/-- A node that is a value specification naming the target with no
initializer values: the one shape whose callback unconditionally sets the
completeness flag to true. -/
def isZeroDeclForTarget (node : ONode) (v : Nat) : Bool :=
  match node with
  | .valueSpec names values =>
    (names.findIdx? (fun i => identIsVar i v)).isSome && values.length == 0
  | _ => false

end V1

/-! ## Concrete programs used by the claims -/

/- The program of the C1 scenario for the V1 scanner, with the target
variable x of Origin 1:
x declared-and-assigned from the hello literal; an if statement whose
condition is a call that cannot be resolved to a value, with a body
reassigning x from the goodbye literal and no else; a return of x. Generic
statement and call nodes are other-nodes, which the walk only descends
through. -/
namespace C1Prog
open V1

def helloLit : ONode := .exprN (some (some (.str "hello")))
def goodbyeLit : ONode := .exprN (some (some (.str "goodbye")))
def xIdent : ONode := .identN none (.varO 1)
def condCall : ONode := .other [.identN none .otherO]
def funcBody : ONode := .other [
    .assign .defineT [xIdent] [helloLit],
    .other [condCall, .other [.assign .assignT [xIdent] [goodbyeLit]]],
    .other [xIdent]]
def env1 : OEnv := [(1, funcBody)]

end C1Prog

/- The program of the C3 counterexample for the V1 scanner, target x of
Origin 1: a compound assignment to an unrelated variable y (which the scanVar
callback answers by lowering completeness, whatever the left-hand side),
followed by the declaration of x with no initializer, followed by the return
of x. In Go: y has some value; y += 1; var x string; return x. -/
namespace C3Prog
open V1

def yAssign : ONode :=
  .assign .otherT [.identN none (.varO 2)] [.exprN (some (some (.int 1)))]
def zeroSpec : ONode := .valueSpec [⟨.varO 1, .stringK⟩] []
def funcBody : ONode := .other [yAssign, zeroSpec, .other [.identN none (.varO 1)]]
def env3 : OEnv := [(1, funcBody)]

end C3Prog

/- The program of the C4 failing input for the V2 scanner. In Go:

func f() (r string) \x7b
  r = "a"
  switch 1 \x7b
  case 1:
    fallthrough
  case 2:
    r = "b"
  \x7d
  return
\x7d

At run time the first clause matches and falls through, so f returns "b".
The result variable r has Origin 7; f is defined in the analysis package
itself (samePkg true), so its body lookup finds the carried body. -/
namespace C4Prog
open V2

def rIdent : GExpr := .mk none (.identE (.varObj 7))
def aLit : GExpr := .mk (some (some (.str "a"))) .otherE
def bLit : GExpr := .mk (some (some (.str "b"))) .otherE
def oneTag : GExpr := .mk (some (some (.int 1))) .otherE
def oneCase : GExpr := .mk (some (some (.int 1))) .otherE
def twoCase : GExpr := .mk (some (some (.int 2))) .otherE
def fBody : List GStmt := [
  .assign [rIdent] .assign [aLit],
  .switchS none (some oneTag) [
    .clause (some [oneCase]) [.branch .fallthroughT],
    .clause (some [twoCase]) [.assign [rIdent] .assign [bLit]]],
  .retS []]
def fData : CallData :=
  .mk (some 1) (.func (some "p") "f" (some [7]) (some fBody) true)

end C4Prog

/- The program of the C6 failing input for the V2 scanner. In Go:

func g() int \x7b return 0 \x7d
func f() (r int) \x7b
  r = 6
  r /= g()
  return
\x7d

The program type-checks; scanning f divides the tracked constant 6 by the
constant 0 resolved from the body of g through constant.BinaryOp with the
division token, which panics on a zero divisor. The result variables of f
and g have Origins 7 and 8; both functions are defined in the analysis
package itself (samePkg true), so their body lookups find the carried
bodies. -/
namespace C6Prog
open V2

def rIdent : GExpr := .mk none (.identE (.varObj 7))
def sixLit : GExpr := .mk (some (some (.int 6))) .otherE
def zeroLit : GExpr := .mk (some (some (.int 0))) .otherE
def gBody : List GStmt := [.retS [zeroLit]]
def gData : CallData :=
  .mk (some 1) (.func (some "p") "g" (some [8]) (some gBody) true)
def gCall : GExpr := .mk (some none) (.callE gData)
def fBody : List GStmt := [
  .assign [rIdent] .assign [sixLit],
  .assign [rIdent] .quoA [gCall],
  .retS []]
def fData : CallData :=
  .mk (some 1) (.func (some "p") "f" (some [7]) (some fBody) true)

end C6Prog

/- The statements of the C8 failing inputs for the V2 scanner, scanned in a
package other than testing. In Go:

	os.Exit(1)    // bare call through a qualified identifier
	t.Fatal()     // bare method call on a *testing.T receiver
	panic("x")    // bare call to the builtin

The Program-Model facts carried on the nodes: the callee of os.Exit(1) is a
selector expression that is a qualified identifier, which the Selections map
excludes, so getFuncOrBuiltinForCall leaves it unresolved (noObj); the callee
of t.Fatal() is a method selection, which Selections does resolve, to the
function Fatal of package testing with no declared results — a package other
than the analysis package (samePkg false); the callee of panic is an
identifier resolving to the builtin. None of the three calls yields a value
(zero results), and none of the call expressions has a Types-map constant. -/
namespace C8Prog
open V2

def osExitData : CallData := .mk (some 0) .noObj
def osExitStmt : GExpr := .mk none (.callE osExitData)
def tFatalData : CallData :=
  .mk (some 0) (.func (some "testing") "Fatal" (some []) none false)
def tFatalStmt : GExpr := .mk none (.callE tFatalData)
def panicData : CallData := .mk (some 0) (.builtin "panic")
def panicStmt : GExpr := .mk none (.callE panicData)
def s0 : SState := ⟨0, -1, [], true, true⟩

end C8Prog

/-! ## Canonical-form (ExactString) injectivity

On the value kinds of this embedding the canonical string determines the
value, which is what makes the ExactString-keyed maps behave as sets of
values: inserting a value can only replace an equal value. -/

theorem digitChar_toNat (d : Nat) (h : d < 10) : (digitChar d).toNat = 48 + d := by
  interval_cases d <;> decide

theorem natChars_ne_nil (n : Nat) : natChars n ≠ [] := by
  rw [natChars]
  split <;> simp

theorem natChars_digits (n : Nat) : ∀ c ∈ natChars n, 48 ≤ c.toNat ∧ c.toNat ≤ 57 := by
  induction n using Nat.strong_induction_on with
  | _ n ih =>
    rw [natChars]
    split
    next h =>
      intro c hc
      simp only [List.mem_singleton] at hc
      subst hc
      rw [digitChar_toNat n h]
      omega
    next h =>
      intro c hc
      simp only [List.mem_append, List.mem_singleton] at hc
      rcases hc with hc | hc
      · exact ih (n / 10) (Nat.div_lt_self (by omega) (by omega)) c hc
      · subst hc
        rw [digitChar_toNat _ (Nat.mod_lt _ (by omega))]
        omega

/-- Decimal value of a digit list, used to invert natChars. -/
def charsVal (l : List Char) : Nat := l.foldl (fun a c => 10 * a + (c.toNat - 48)) 0

theorem charsVal_natChars (n : Nat) : charsVal (natChars n) = n := by
  induction n using Nat.strong_induction_on with
  | _ n ih =>
    rw [natChars]
    split
    next h =>
      simp [charsVal, digitChar_toNat n h]
    next h =>
      have hrec := ih (n / 10) (Nat.div_lt_self (by omega) (by omega))
      have hfold : ∀ (l : List Char) (c : Char),
          charsVal (l ++ [c]) = 10 * charsVal l + (c.toNat - 48) := by
        intro l c
        simp [charsVal, List.foldl_append]
      rw [hfold, hrec, digitChar_toNat _ (Nat.mod_lt _ (by omega))]
      omega

theorem natChars_inj {a b : Nat} (h : natChars a = natChars b) : a = b := by
  have ha := charsVal_natChars a
  rw [h, charsVal_natChars] at ha
  omega

theorem intChars_chars (n : Int) :
    ∀ c ∈ intChars n, c.toNat = 45 ∨ (48 ≤ c.toNat ∧ c.toNat ≤ 57) := by
  unfold intChars
  split
  · intro c hc
    rcases List.mem_cons.mp hc with hc | hc
    · left; subst hc; decide
    · right; exact natChars_digits _ c hc
  · intro c hc
    right; exact natChars_digits _ c hc

theorem intChars_inj {m n : Int} (h : intChars m = intChars n) : m = n := by
  unfold intChars at h
  split at h <;> split at h
  · rcases List.cons.injEq .. ▸ h with ⟨-, h2⟩
    have := natChars_inj h2
    omega
  · exfalso
    have hd : (Char.ofNat 45) ∈ natChars n.toNat := h ▸ List.mem_cons_self _ _
    have := natChars_digits n.toNat _ hd
    have h45 : (Char.ofNat 45).toNat = 45 := by decide
    omega
  · exfalso
    have hd : (Char.ofNat 45) ∈ natChars m.toNat := h ▸ List.mem_cons_self _ _
    have := natChars_digits m.toNat _ hd
    have h45 : (Char.ofNat 45).toNat = 45 := by decide
    omega
  · have := natChars_inj h
    omega

/-- Unique split of a character list at a slash, provided neither prefix holds
a slash. -/
theorem append_slash_inj :
    ∀ (l1 l2 r1 r2 : List Char), (∀ c ∈ l1, c.toNat ≠ 47) → (∀ c ∈ l2, c.toNat ≠ 47) →
    l1 ++ Char.ofNat 47 :: r1 = l2 ++ Char.ofNat 47 :: r2 → l1 = l2 ∧ r1 = r2 := by
  intro l1
  induction l1 with
  | nil =>
    intro l2 r1 r2 _ h2 h
    cases l2 with
    | nil => simpa using h
    | cons y ys =>
      exfalso
      simp only [List.nil_append, List.cons_append, List.cons.injEq] at h
      exact h2 y (List.mem_cons_self _ _) (by rw [← h.1]; decide)
  | cons x xs ih =>
    intro l2 r1 r2 h1 h2 h
    cases l2 with
    | nil =>
      exfalso
      simp only [List.nil_append, List.cons_append, List.cons.injEq] at h
      exact h1 x (List.mem_cons_self _ _) (by rw [h.1]; decide)
    | cons y ys =>
      simp only [List.cons_append, List.cons.injEq] at h
      obtain ⟨hxy, hrest⟩ := h
      obtain ⟨ha, hb⟩ := ih ys r1 r2
        (fun c hc => h1 c (List.mem_cons_of_mem _ hc))
        (fun c hc => h2 c (List.mem_cons_of_mem _ hc)) hrest
      exact ⟨by rw [hxy, ha], hb⟩

theorem escChars_inj : ∀ {s1 s2 : List Char}, escChars s1 = escChars s2 → s1 = s2 := by
  intro s1
  induction s1 with
  | nil =>
    intro s2 h
    cases s2 with
    | nil => rfl
    | cons y ys =>
      exfalso
      simp only [escChars, escChar] at h
      split at h <;> simp at h
  | cons x xs ih =>
    intro s2 h
    cases s2 with
    | nil =>
      exfalso
      simp only [escChars, escChar] at h
      split at h <;> simp at h
    | cons y ys =>
      simp only [escChars, escChar] at h
      by_cases hx : x = qChar ∨ x = bChar <;> by_cases hy : y = qChar ∨ y = bChar
      · simp only [if_pos hx, if_pos hy, List.cons_append, List.nil_append,
          List.cons.injEq] at h
        rw [h.2.1, ih h.2.2]
      · exfalso
        simp only [if_pos hx, if_neg hy, List.cons_append, List.nil_append,
          List.cons.injEq] at h
        exact hy (Or.inr h.1.symm)
      · exfalso
        simp only [if_neg hx, if_pos hy, List.cons_append, List.nil_append,
          List.cons.injEq] at h
        exact hx (Or.inr h.1)
      · simp only [if_neg hx, if_neg hy, List.cons_append, List.nil_append,
          List.cons.injEq] at h
        rw [h.1, ih h.2]

theorem quoteChars_inj {s1 s2 : String} (h : quoteChars s1 = quoteChars s2) :
    s1 = s2 := by
  simp only [quoteChars, List.cons.injEq, true_and] at h
  have h2 := List.append_cancel_right h
  have h3 := escChars_inj h2
  cases s1; cases s2
  exact congrArg String.mk h3

theorem mem_of_eq {L R : List Char} (h : L = R) {c : Char} (hc : c ∈ L) : c ∈ R :=
  h ▸ hc

theorem qChar_mem_quote (s : String) : qChar ∈ quoteChars s := by
  simp [quoteChars]

theorem ratChars_chars (a : Int) (b : Nat) :
    ∀ c ∈ intChars a ++ Char.ofNat 47 :: natChars b,
      c.toNat = 45 ∨ c.toNat = 47 ∨ (48 ≤ c.toNat ∧ c.toNat ≤ 57) := by
  intro c hc
  rcases List.mem_append.mp hc with hc | hc
  · rcases intChars_chars a c hc with h | h
    · exact Or.inl h
    · exact Or.inr (Or.inr h)
  · rcases List.mem_cons.mp hc with hc | hc
    · right; left; subst hc; decide
    · exact Or.inr (Or.inr (natChars_digits b c hc))

theorem slash_mem_rat (a : Int) (b : Nat) :
    Char.ofNat 47 ∈ intChars a ++ Char.ofNat 47 :: natChars b := by
  simp

theorem constval_exactChars_inj :
    ∀ {c1 c2 : ConstVal}, c1.exactChars = c2.exactChars → c1 = c2 := by
  have e101 : ∀ b : Bool, Char.ofNat 101 ∈ (ConstVal.bool b).exactChars := by
    intro b; cases b <;> decide
  have u117 : Char.ofNat 117 ∈ (ConstVal.unknown).exactChars := by decide
  intro c1 c2 h
  cases c1 <;> cases c2 <;>
    simp only [ConstVal.exactChars] at h
  case bool.bool b1 b2 =>
    cases b1 <;> cases b2 <;> first | rfl | exact absurd h (by decide)
  case bool.int b n =>
    exfalso
    have hm := mem_of_eq h (e101 b)
    rcases intChars_chars n _ hm with h1 | h1 <;> simp_all
  case bool.rat b a d =>
    exfalso
    have hm := mem_of_eq h (e101 b)
    rcases ratChars_chars a d _ hm with h1 | h1 | h1 <;> simp_all
  case bool.str b s =>
    exfalso
    have hm := mem_of_eq h.symm (qChar_mem_quote s)
    cases b <;> exact absurd hm (by decide)
  case bool.unknown b =>
    cases b <;> exact absurd h (by decide)
  case int.bool n b =>
    exfalso
    have hm := mem_of_eq h.symm (e101 b)
    rcases intChars_chars n _ hm with h1 | h1 <;> simp_all
  case int.int m n => exact congrArg ConstVal.int (intChars_inj h)
  case int.rat n a d =>
    exfalso
    have hm := mem_of_eq h.symm (slash_mem_rat a d)
    rcases intChars_chars n _ hm with h1 | h1 <;> simp_all
  case int.str n s =>
    exfalso
    have hm := mem_of_eq h.symm (qChar_mem_quote s)
    have hq : qChar.toNat = 34 := by decide
    rcases intChars_chars n _ hm with h1 | h1 <;> omega
  case int.unknown n =>
    exfalso
    have hm := mem_of_eq h.symm u117
    rcases intChars_chars n _ hm with h1 | h1 <;> simp_all
  case rat.bool a d b =>
    exfalso
    have hm := mem_of_eq h.symm (e101 b)
    rcases ratChars_chars a d _ hm with h1 | h1 | h1 <;> simp_all
  case rat.int a d n =>
    exfalso
    have hm := mem_of_eq h (slash_mem_rat a d)
    rcases intChars_chars n _ hm with h1 | h1 <;> simp_all
  case rat.rat a1 d1 a2 d2 =>
    obtain ⟨h1, h2⟩ := append_slash_inj _ _ _ _
      (fun c hc => by rcases intChars_chars a1 c hc with h1 | h1 <;> omega)
      (fun c hc => by rcases intChars_chars a2 c hc with h1 | h1 <;> omega) h
    rw [intChars_inj h1, natChars_inj h2]
  case rat.str a d s =>
    exfalso
    have hm := mem_of_eq h.symm (qChar_mem_quote s)
    have hq : qChar.toNat = 34 := by decide
    rcases ratChars_chars a d _ hm with h1 | h1 | h1 <;> omega
  case rat.unknown a d =>
    exfalso
    have hm := mem_of_eq h.symm u117
    rcases ratChars_chars a d _ hm with h1 | h1 | h1 <;> simp_all
  case str.bool s b =>
    exfalso
    have hm := mem_of_eq h (qChar_mem_quote s)
    cases b <;> exact absurd hm (by decide)
  case str.int s n =>
    exfalso
    have hm := mem_of_eq h (qChar_mem_quote s)
    have hq : qChar.toNat = 34 := by decide
    rcases intChars_chars n _ hm with h1 | h1 <;> omega
  case str.rat s a d =>
    exfalso
    have hm := mem_of_eq h (qChar_mem_quote s)
    have hq : qChar.toNat = 34 := by decide
    rcases ratChars_chars a d _ hm with h1 | h1 | h1 <;> omega
  case str.str s1 s2 => exact congrArg ConstVal.str (quoteChars_inj h)
  case str.unknown s =>
    exfalso
    have hm := mem_of_eq h (qChar_mem_quote s)
    exact absurd hm (by decide)
  case unknown.bool b =>
    cases b <;> exact absurd h (by decide)
  case unknown.int n =>
    exfalso
    have hm := mem_of_eq h u117
    rcases intChars_chars n _ hm with h1 | h1 <;> simp_all
  case unknown.rat a d =>
    exfalso
    have hm := mem_of_eq h u117
    rcases ratChars_chars a d _ hm with h1 | h1 | h1 <;> simp_all
  case unknown.str s =>
    exfalso
    have hm := mem_of_eq h.symm (qChar_mem_quote s)
    exact absurd hm (by decide)
  case unknown.unknown => rfl

/-- The first character of the canonical form of a go/constant value is never
the ampersand that opens the canonical form of a Pointer. -/
theorem cv_exact_head (c : ConstVal) :
    ∀ {ch : Char} {l : List Char}, c.exactChars = ch :: l → ch.toNat ≠ 38 := by
  intro ch l h
  have hm : ch ∈ c.exactChars := h ▸ List.mem_cons_self _ _
  cases c
  case bool b =>
    cases b
    · exact (by decide : ∀ x ∈ ConstVal.exactChars (.bool false), x.toNat ≠ 38) ch hm
    · exact (by decide : ∀ x ∈ ConstVal.exactChars (.bool true), x.toNat ≠ 38) ch hm
  case int n =>
    simp only [ConstVal.exactChars] at hm
    rcases intChars_chars _ _ hm with h1 | h1 <;> omega
  case rat a d =>
    simp only [ConstVal.exactChars] at hm
    rcases ratChars_chars a d _ hm with h1 | h1 | h1 <;> omega
  case str s =>
    simp only [ConstVal.exactChars, quoteChars] at h
    have : ch = qChar := (List.cons.injEq .. ▸ h).1.symm
    subst this
    decide
  case unknown =>
    exact (by decide : ∀ x ∈ ConstVal.exactChars .unknown, x.toNat ≠ 38) ch hm

theorem value_exactChars_inj :
    ∀ (v w : Value), v.exactChars = w.exactChars → v = w
  | .cv c1, .cv c2, h => congrArg Value.cv (constval_exactChars_inj h)
  | .cv c1, .pointer p, h =>
    absurd (by decide : (Char.ofNat 38).toNat = 38) (cv_exact_head c1 h)
  | .pointer p, .cv c2, h =>
    absurd (by decide : (Char.ofNat 38).toNat = 38) (cv_exact_head c2 h.symm)
  | .pointer p, .pointer q, h => by
    injection h with h1 h2
    exact congrArg Value.pointer (value_exactChars_inj p q h2)

theorem ExactString_inj {v w : Value} (h : v.ExactString = w.ExactString) :
    v = w :=
  value_exactChars_inj v w (congrArg String.data h)

/-! ## Membership preservation of the map operations -/

theorem mem_mapSet_self (m : Map) (v : Value) : v ∈ mapSet m v := by
  unfold mapSet
  split
  next hany =>
    obtain ⟨w, hw, hbe⟩ := List.any_eq_true.mp hany
    exact List.mem_map.mpr ⟨w, hw, by simp [hbe]⟩
  next => simp

theorem mem_mapSet_of_mem {m : Map} {w : Value} (v : Value) (hw : w ∈ m) :
    w ∈ mapSet m v := by
  by_cases he : w.ExactString = v.ExactString
  · have : w = v := by
      have hv : w = v := ExactString_inj he
      exact hv
    subst this
    exact mem_mapSet_self m w
  · unfold mapSet
    split
    · refine List.mem_map.mpr ⟨w, hw, ?_⟩
      simp [he]
    · exact List.mem_append_left _ hw

theorem mem_mapsCopy_of_mem_dst {dst : Map} {w : Value} (src : Map)
    (hw : w ∈ dst) : w ∈ mapsCopy dst src := by
  induction src generalizing dst with
  | nil => exact hw
  | cons v rest ih => exact ih (mem_mapSet_of_mem v hw)

theorem mem_mapsCopy_of_mem_src {src : Map} {w : Value} (dst : Map)
    (hw : w ∈ src) : w ∈ mapsCopy dst src := by
  induction src generalizing dst with
  | nil => cases hw
  | cons v rest ih =>
    rcases List.mem_cons.mp hw with hw | hw
    · subst hw
      exact mem_mapsCopy_of_mem_dst rest (mem_mapSet_self dst w)
    · exact ih _ hw

/-- mergeMaps loses no value: every value of either operand is a value of the
merge. -/
theorem mem_mergeMaps {a b : Map} {v : Value} (h : v ∈ a ∨ v ∈ b) :
    v ∈ mergeMaps a b := by
  unfold mergeMaps
  rcases h with h | h
  · exact mem_mapsCopy_of_mem_dst b (mem_mapsCopy_of_mem_src [] h)
  · exact mem_mapsCopy_of_mem_src _ h

/-! ## Helper lemmas about the statement list scanner -/

theorem stmtList_stuck {s : V2.SState} (h : s.canContinue = false)
    (l : List V2.GStmt) : V2.stmtList s l = some s := by
  cases l with
  | nil => simp [V2.stmtList]
  | cons st rest => simp [V2.stmtList, h]

theorem stmtList_bind (s : V2.SState) (l1 l2 : List V2.GStmt) :
    V2.stmtList s (l1 ++ l2) =
      (V2.stmtList s l1).bind (fun s2 => V2.stmtList s2 l2) := by
  induction l1 generalizing s with
  | nil => simp [V2.stmtList]
  | cons st rest ih =>
    by_cases hc : s.canContinue
    · rw [List.cons_append]
      rw [V2.stmtList, V2.stmtList]
      simp only [hc, Bool.not_true, Bool.false_eq_true, if_false]
      cases hstmt : V2.stmt s st with
      | none => simp
      | some s2 => simp [ih s2]
    · have hc2 : s.canContinue = false := by simpa using hc
      rw [List.cons_append]
      rw [stmtList_stuck hc2, stmtList_stuck hc2]
      simp [stmtList_stuck hc2]

/-! ## The claims -/

/-- C1: for the program fragment
x := "hello"; if cond() \x7b x = "goodbye" \x7d; return x,
where the value of cond() cannot be resolved, scanning the use of x at the
return statement yields exactly the value set containing the hello and
goodbye strings, with the completeness flag true. -/
theorem C1_if_assignment_scan :
    V1.Scan 2 C1Prog.env1 C1Prog.xIdent =
      ([Value.cv (.str "hello"), Value.cv (.str "goodbye")], true) := by
  simp [V1.Scan, V1.scanIdent, V1.scanVar, C1Prog.env1, V1.envLookup, V1.inspect,
    V1.inspectList, V1.inspectStep, C1Prog.funcBody, C1Prog.xIdent, C1Prog.condCall,
    C1Prog.helloLit, C1Prog.goodbyeLit, V1.tvO, V1.exprIsVar, V1.unparenO,
    List.findIdx?, mapsCopy, mapSet, Value.ExactString]
  decide

/-- C7: within a single sequential statement list, once the canContinue flag
of the scanner is false, no subsequent statement of that list is scanned: the
scan of the whole list returns exactly the state reached when the flag went
false, so the remaining statements change neither the value set nor the
completeness nor the canContinue flag. -/
theorem C7_cancontinue_sticky (s : V2.SState) (l1 l2 : List V2.GStmt)
    (s1 : V2.SState) (h : V2.stmtList s l1 = some s1)
    (hstop : s1.canContinue = false) :
    V2.stmtList s (l1 ++ l2) = some s1 := by
  rw [stmtList_bind, h]
  simpa using stmtList_stuck hstop l2

/-- Witness for C7 at a concrete input: a break statement stops the list, and
a following unsupported statement (which would lower completeness if it were
scanned) leaves the state untouched. -/
theorem C7_cancontinue_sticky_witness :
    V2.stmtList ⟨0, -1, [], true, true⟩ ([.branch .breakT] ++ [.otherS]) =
      some ⟨0, -1, [], true, false⟩ :=
  C7_cancontinue_sticky _ _ _ _
    (by simp [V2.stmtList, V2.stmt, V2.branchStmt]) rfl

/-- C2: merging the results of the two forked branch scanners in the
if-with-else case produces exactly the state whose value set is the mergeMaps
union of the value sets of the two branches (and that union loses no value of
either branch), whose completeness flag is the conjunction of the two
completeness flags, and whose canContinue flag is the disjunction of the two
canContinue flags. -/
theorem C2_merge_no_loss (s1 : V2.SState) (cond : V2.GExpr)
    (body : List V2.GStmt) (e : V2.GStmt) (cv : Map) (cc : Bool)
    (thenS elseS : V2.SState)
    (hc : V2.Scan cond = some (cv, cc))
    (hT : (!cc || V2.anyBoolVals cv true) = true)
    (hF : (!cc || V2.anyBoolVals cv false) = true)
    (hthen : V2.blockStmt s1.dup body = some thenS)
    (helse : V2.stmt s1.dup e = some elseS) :
    V2.ifStmt s1 none cond body (some e) =
      some ⟨s1.v, s1.retIdx, mergeMaps thenS.vals elseS.vals,
        thenS.complete && elseS.complete,
        thenS.canContinue || elseS.canContinue⟩ ∧
    (∀ v : Value, v ∈ thenS.vals ∨ v ∈ elseS.vals →
        v ∈ mergeMaps thenS.vals elseS.vals) := by
  constructor
  · cases cc with
    | false => simp [V2.ifStmt, V2.stmtOpt, hc, hthen, helse]
    | true =>
      simp only [Bool.not_true, Bool.false_or] at hT hF
      simp [V2.ifStmt, V2.stmtOpt, hc, hT, hF, hthen, helse]
  · intro v hv
    exact mem_mergeMaps hv

/-- Witness for C2 at a concrete input: an unresolvable condition with an
empty body and an empty-statement else. -/
theorem C2_merge_no_loss_witness :
    V2.ifStmt (V2.newStmtScanner 0 (-1) []) none (V2.GExpr.mk none .otherE) []
        (some .emptyS) =
      some ⟨0, -1, mergeMaps [] [], true && true, true || true⟩ ∧
    (∀ v : Value, v ∈ ([] : Map) ∨ v ∈ ([] : Map) → v ∈ mergeMaps [] []) :=
  C2_merge_no_loss (V2.newStmtScanner 0 (-1) []) _ _ _ [] false
    ⟨0, -1, [], true, true⟩ ⟨0, -1, [], true, true⟩
    (by simp [V2.Scan, V2.tvConst])
    rfl rfl
    (by simp [V2.blockStmt, V2.stmtList, V2.SState.dup, V2.newStmtScanner])
    (by simp [V2.stmt, V2.SState.dup, V2.newStmtScanner])

/-- C9: a forked scanner copy (dup) starts from the accumulated value set and
completeness of the fork point with its own canContinue initialized to true
and the same target; a fresh scanner (newStmtScanner) starts complete and
alive; and in the forking if case each branch is scanned from its own dup of
the parent state, the two scans being composed independently, with the parent
contributing only its identity fields and the final merge, so scanning one
fork cannot change the sibling fork or the parent. -/
theorem C9_fork_state :
    (∀ s : V2.SState, s.dup = ⟨s.v, s.retIdx, s.vals, s.complete, true⟩) ∧
    (∀ (v : Nat) (i : Int) (vals : Map),
      V2.newStmtScanner v i vals = ⟨v, i, vals, true, true⟩) ∧
    (∀ (s : V2.SState) (cond : V2.GExpr) (body : List V2.GStmt) (e : V2.GStmt)
        (cv : Map) (cc : Bool),
      V2.Scan cond = some (cv, cc) →
      (!cc || V2.anyBoolVals cv true) = true →
      (!cc || V2.anyBoolVals cv false) = true →
      V2.ifStmt s none cond body (some e) =
        (V2.blockStmt s.dup body).bind (fun tS =>
          (V2.stmt s.dup e).bind (fun eS =>
            some ⟨s.v, s.retIdx, mergeMaps tS.vals eS.vals,
              tS.complete && eS.complete,
              tS.canContinue || eS.canContinue⟩))) := by
  refine ⟨fun s => rfl, fun v i vals => rfl, ?_⟩
  intro s cond body e cv cc hc hT hF
  cases cc with
  | false =>
    simp [V2.ifStmt, V2.stmtOpt, hc]
  | true =>
    simp only [Bool.not_true, Bool.false_or] at hT hF
    simp [V2.ifStmt, V2.stmtOpt, hc, hT, hF]

/-- Witness for C9 at a concrete input. -/
theorem C9_fork_state_witness :
    V2.ifStmt ⟨4, -1, [Value.cv (.str "a")], false, true⟩ none
        (V2.GExpr.mk none .otherE) [] (some .emptyS) =
      (V2.blockStmt (V2.SState.dup ⟨4, -1, [Value.cv (.str "a")], false, true⟩) []).bind
        (fun tS => (V2.stmt (V2.SState.dup ⟨4, -1, [Value.cv (.str "a")], false, true⟩)
            .emptyS).bind
          (fun eS => some ⟨4, -1, mergeMaps tS.vals eS.vals,
            tS.complete && eS.complete, tS.canContinue || eS.canContinue⟩)) :=
  C9_fork_state.2.2 ⟨4, -1, [Value.cv (.str "a")], false, true⟩ _ [] .emptyS
    [] false (by simp [V2.Scan, V2.tvConst]) rfl rfl

/-- C10: when the condition of an if statement scans to a complete value set
containing neither a boolean true nor a boolean false value, neither branch
is scanned and the scanner state is exactly the state reached after the init
statement. -/
theorem C10_impossible_condition (s : V2.SState) (init : Option V2.GStmt)
    (cond : V2.GExpr) (body : List V2.GStmt) (els : Option V2.GStmt)
    (s1 : V2.SState) (cv : Map)
    (hinit : V2.stmtOpt s init = some s1)
    (hc : V2.Scan cond = some (cv, true))
    (hT : V2.anyBoolVals cv true = false)
    (hF : V2.anyBoolVals cv false = false) :
    V2.ifStmt s init cond body els = some s1 := by
  simp [V2.ifStmt, hinit, hc, hT, hF]

/-- Witness for C10 at a concrete input: a complete singleton integer
condition set; the body and else are unsupported statements that would lower
completeness if they were scanned, and the state is returned untouched. -/
theorem C10_impossible_condition_witness :
    V2.ifStmt ⟨3, -1, [Value.cv (.str "x")], false, true⟩ none
        (V2.GExpr.mk (some (some (.int 0))) .otherE) [.otherS] (some .otherS) =
      some ⟨3, -1, [Value.cv (.str "x")], false, true⟩ :=
  C10_impossible_condition _ none _ _ _ _ [Value.cv (.int 0)]
    (by simp [V2.stmtOpt]) (by simp [V2.Scan, V2.tvConst]) rfl rfl

/-- Counterexample to C3 as stated: in a single scan of the scope of x (the
C3 program: a compound assignment to another variable, then the declaration
of x with no initializer), the walk first lowers the completeness flag to
false at the compound assignment, the zero-value declaration step then raises
the already-false flag back to true, and the whole scan returns the zero
value with completeness true. -/
theorem C3_counterexample_flag_raised :
    (V1.inspect 0 C3Prog.env3 1 ⟨[], true⟩ C3Prog.yAssign).complete = false ∧
    (V1.inspectStep 0 C3Prog.env3 1 ⟨[], false⟩ C3Prog.zeroSpec).complete = true ∧
    V1.scanVar 1 C3Prog.env3 1 = ([Value.cv (.str "")], true) := by
  refine ⟨?_, ?_, ?_⟩
  · simp [V1.inspect, V1.inspectList, V1.inspectStep, C3Prog.yAssign]
  · simp [V1.inspectStep, C3Prog.zeroSpec, V1.identIsVar, List.findIdx?,
      V1.zeroValFor, mapSet]
  · simp [V1.scanVar, C3Prog.env3, V1.envLookup, V1.inspect, V1.inspectList,
      V1.inspectStep, C3Prog.funcBody, C3Prog.yAssign, C3Prog.zeroSpec,
      V1.tvO, V1.exprIsVar, V1.unparenO, V1.identIsVar, List.findIdx?,
      V1.zeroValFor, mapSet, Value.ExactString]

/-- C3 as amended: during a single scan of the scope of a variable, no step
of the walk raises the completeness flag from false to true, except that
processing a declaration of the target with no initializer unconditionally
sets the flag to true (raising it even when it was already false). -/
theorem C3_flag_monotone_except_zero_decl :
    (∀ (fuel : Nat) (env : V1.OEnv) (v : Nat) (st : V1.SVState)
        (node : V1.ONode),
      (V1.inspectStep fuel env v st node).complete = true →
      st.complete = true ∨ V1.isZeroDeclForTarget node v = true) ∧
    (∀ (fuel : Nat) (env : V1.OEnv) (v : Nat) (st : V1.SVState)
        (names : List V1.OIdent),
      (names.findIdx? (fun i => V1.identIsVar i v)).isSome →
      (V1.inspectStep fuel env v st (.valueSpec names [])).complete = true) := by
  constructor
  · intro fuel env v st node h
    cases node with
    | assign tok lhs rhs =>
      left
      cases tok <;> simp only [V1.inspectStep] at h
      case otherT => simp at h
      all_goals
        split at h
        · exact h
        · by_cases hlen : rhs.length ≠ lhs.length
          · rw [if_pos hlen] at h
            simp at h
          · rw [if_neg hlen] at h
            split at h
            · exact h
            · simp at h
              exact h.1
    | unary op x =>
      left
      simp only [V1.inspectStep] at h
      split at h
      · split at h
        · simp at h
        · exact h
      · exact h
    | valueSpec names values =>
      simp only [V1.inspectStep] at h
      split at h
      · exact Or.inl h
      · rename_i found hfi
        by_cases hlen : values.length = 0
        · right
          simp [V1.isZeroDeclForTarget, hfi, hlen]
        · rw [if_neg hlen] at h
          by_cases hlen2 : values.length ≠ names.length
          · rw [if_pos hlen2] at h
            simp at h
          · rw [if_neg hlen2] at h
            split at h
            · exact Or.inl h
            · refine Or.inl ?_
              simp at h
              exact h.1
    | identN tv obj =>
      simp only [V1.inspectStep] at h
      exact Or.inl h
    | exprN tv =>
      simp only [V1.inspectStep] at h
      exact Or.inl h
    | paren x =>
      simp only [V1.inspectStep] at h
      exact Or.inl h
    | other cs =>
      simp only [V1.inspectStep] at h
      exact Or.inl h
  · intro fuel env v st names hf
    simp only [V1.inspectStep]
    rcases hfi : names.findIdx? (fun i => V1.identIsVar i v) with _ | found
    · rw [hfi] at hf; simp at hf
    · simp

/-- Witness for the amended C3 at concrete inputs: a step on a generic node
keeps a true flag true, and the zero-value declaration of the target sets the
flag to true from a false state. -/
theorem C3_flag_monotone_witness :
    ((⟨[], true⟩ : V1.SVState).complete = true ∨
      V1.isZeroDeclForTarget (.other []) 1 = true) ∧
    (V1.inspectStep 0 [] 1 ⟨[], false⟩
        (.valueSpec [⟨V1.OObj.varO 1, .stringK⟩] [])).complete = true :=
  ⟨C3_flag_monotone_except_zero_decl.1 0 [] 1 ⟨[], true⟩ (.other [])
      (by simp [V1.inspectStep]),
    C3_flag_monotone_except_zero_decl.2 0 [] 1 ⟨[], false⟩
      [⟨V1.OObj.varO 1, .stringK⟩] (by simp [List.findIdx?, V1.identIsVar])⟩

/-- C4 as evaluated on the code at the failing input: in the C4 program the
first switch clause matches the constant tag and ends in fallthrough, yet the
second clause is pruned (the fallthrough test requires more than one already
collected clause), so the scan misses the assignment of the b string the
fallthrough makes reachable and still reports the a-only set as complete. -/
theorem C4_fallthrough_clause_pruned :
    V2.ScanCallResult C4Prog.fData 0 = some ([Value.cv (.str "a")], true) := by
  simp [C4Prog.fData, C4Prog.fBody, C4Prog.rIdent, C4Prog.aLit, C4Prog.bLit,
    C4Prog.oneTag, C4Prog.oneCase, C4Prog.twoCase,
    V2.ScanCallResult, V2.blockStmt, V2.stmtList, V2.stmt, V2.assignStmt,
    V2.assignFinish, V2.newStmtScanner, V2.exprIsVar, List.findIdx?, V2.Scan,
    V2.tvConst, V2.switchStmt, V2.stmtOpt, V2.switchClauses, V2.caseExprsMatch,
    V2.tagAnyMatch, V2.pairAnyEq, constCompare, ratCmp, V2.clauseFallsThrough,
    V2.SState.dup, V2.branchStmt, V2.mergeClauses, V2.returnStmt,
    mergeMaps, mapsCopy, mapSet, Value.ExactString]

/-- C6 as evaluated on the code at the failing input: scanning the body of f
in the C6 program panics (none): the compound division assignment pairs the
tracked constant 6 with the constant 0 resolved from g through
constant.BinaryOp with the division token, whose documented behavior on a
zero divisor is a run-time panic. -/
theorem C6_division_by_zero_panic :
    V2.ScanCallResult C6Prog.fData 0 = none := by
  simp [C6Prog.fData, C6Prog.fBody, C6Prog.rIdent, C6Prog.sixLit, C6Prog.zeroLit,
    C6Prog.gBody, C6Prog.gData, C6Prog.gCall,
    V2.ScanCallResult, V2.blockStmt, V2.stmtList, V2.stmt, V2.assignStmt,
    V2.assignFinish, V2.newStmtScanner, V2.exprIsVar, List.findIdx?, V2.Scan,
    V2.tvConst, V2.isSingleValue, V2.returnStmt, V2.scanBinaryExprWithLHS,
    V2.assignOps, V2.pairOp, constBinaryOp, intBinaryOp, V2.unparen,
    mapSet, Value.ExactString]

/-- C8 as evaluated on the code at the failing inputs: the claim holds for
the builtin panic, whose bare call alone stops the sequence, and the
nonLocalExitFuncs table does list os.Exit and testing.Fatal; but a bare call
to os.Exit leaves canContinue untouched at true, because the qualified
identifier is never an entry of the Selections map and the callee stays
unresolved, and a bare call to the resolved testing.Fatal panics the scan
(none) in the body lookup, which dereferences a nil package pointer for every
cross-package callee, so the sequence is never marked stopped; a go statement
launching the resolved call panics the same way instead of leaving
canContinue true. -/
theorem C8_nonlocal_exit_divergence :
    (V2.exprStmt C8Prog.s0 C8Prog.panicStmt = some ⟨0, -1, [], true, false⟩) ∧
    (V2.isNonLocalExitFunc (some "os") "Exit" = true) ∧
    (V2.isNonLocalExitFunc (some "testing") "Fatal" = true) ∧
    (V2.exprStmt C8Prog.s0 C8Prog.osExitStmt = some C8Prog.s0) ∧
    (C8Prog.s0.canContinue = true) ∧
    (V2.exprStmt C8Prog.s0 C8Prog.tFatalStmt = none) ∧
    (V2.goStmt C8Prog.s0 C8Prog.tFatalData = none) := by
  refine ⟨?_, ?_, ?_, ?_, ?_, ?_, ?_⟩ <;>
    simp [C8Prog.s0, C8Prog.panicStmt, C8Prog.panicData, C8Prog.osExitStmt,
      C8Prog.osExitData, C8Prog.tFatalStmt, C8Prog.tFatalData,
      V2.exprStmt, V2.unparen, V2.callExpr, V2.goStmt,
      V2.isNonLocalExitBuiltin, V2.isNonLocalExitFunc]

end Exprvals
